import Mathlib

/-!
Verification development for the heterogeneous R-GCN tutorial workload
(`src/data/ACM/5_hetero.ipynb`).

The notebook's own code (cells 22, 24, 26, 28) is translated directly:
`HeteroRGCNLayer.forward`, `HeteroRGCN.forward`, and the label/split
generation over the `PvsC` CSR matrix.  The DGL library primitives the
notebook calls (`dgl.heterograph`, `multi_update_all`, `fn.copy_u`,
`fn.mean`) are not part of this repository's sources; they are modelled
from the specification (spec.md §3, §4.1, §4.2).  All arithmetic is over
`ℚ` (exact arithmetic).
-/

/-- Dense matrix: a list of rows of rationals. -/
abbrev Mat := List (List ℚ)

/-- Zero vector of a given width. -/
def vecZero (w : Nat) : List ℚ := List.replicate w 0

/-- Element-wise vector addition. -/
def vecAdd (a b : List ℚ) : List ℚ := List.zipWith (· + ·) a b

/-- Scalar multiplication of a vector. -/
def vecScale (c : ℚ) (v : List ℚ) : List ℚ := v.map (fun x => c * x)

/-- Dot product of two vectors. -/
def dot (a b : List ℚ) : ℚ := (List.zipWith (fun x y => x * y) a b).sum

/-- Element-wise matrix addition. -/
def matAdd (A B : Mat) : Mat := List.zipWith vecAdd A B

/-- Weights of one `nn.Linear(in_size, out_size)` module: `W` has `out_size`
rows of width `in_size`, `b` has length `out_size`; applied as `x ↦ W x + b`. -/
structure LinLayer where
  W : Mat
  b : List ℚ
deriving DecidableEq

/-- Apply a linear layer to one row vector, as `torch.nn.Linear` does. -/
def linApply (L : LinLayer) (x : List ℚ) : List ℚ :=
  List.zipWith (fun wr bj => dot wr x + bj) L.W L.b

/-- Apply a linear layer to every row of a matrix (`self.weight[etype](feat)`). -/
def linMap (L : LinLayer) (M : Mat) : Mat := M.map (linApply L)

/-- Leaky ReLU with the default negative slope 0.01 of `F.leaky_relu`
(cell 26 of the notebook), in exact arithmetic: `0.01 = 1/100`. -/
def leakyRelu (x : ℚ) : ℚ := if x < 0 then x / 100 else x

/-! ## Label generation (notebook cell 22)

`pvc = data['PvsC'].tocsr()` is a SciPy CSR matrix; the cell reads
`pvc.indices` (the concatenated column indices of all rows, in row order)
and remaps the conference IDs `11 ↦ 1` and `13 ↦ 2` in place. -/

/-- The two CSR arrays of `pvc` that cell 22 uses: `indptr` (row start
offsets) and `indices` (column IDs of the nonzeros, concatenated row by
row). -/
structure CSR where
  indptr : List Nat
  indices : List Nat
deriving DecidableEq

/-- Combined effect on one entry of the two sequential in-place writes
`labels[labels == 11] = 1` and then `labels[labels == 13] = 2`. -/
def remap (c : Nat) : Nat := if c = 11 then 1 else if c = 13 then 2 else c

/-- The `labels` vector of cell 22: `labels = pvc.indices` followed by the
two in-place remaps, then copied into a tensor. -/
def labelsOf (m : CSR) : List Nat := m.indices.map remap

/-- The state of `pvc` after cell 22 ran: because `labels` aliases
`pvc.indices`, the in-place remaps write through into the matrix. -/
def pvcAfter (m : CSR) : CSR := { m with indices := m.indices.map remap }

/-- Column IDs of row `p` of a CSR matrix: the slice of `indices` between
`indptr[p]` and `indptr[p+1]` (the conferences of paper `p`). -/
def rowConfs (m : CSR) (p : Nat) : List Nat :=
  (m.indices.drop (m.indptr.getD p 0)).take
    (m.indptr.getD (p + 1) 0 - m.indptr.getD p 0)

/-- Whether a conference column ID is one of the three selected in cell 22:
`c_selected = [0, 11, 13]` (KDD, ICML, VLDB). -/
def isSelectedConf (c : Nat) : Bool := c == 0 || c == 11 || c == 13

/-- Papers appearing in `pid = p_selected.row`, i.e. rows of
`pvc[:, [0, 11, 13]]` that have at least one nonzero; the train, validation
and test splits are slices of a permutation of `pid`, so each split index is
a member of this list. -/
def selectedPapers (m : CSR) : List Nat :=
  (List.range (m.indptr.length - 1)).filter (fun p => (rowConfs m p).any isSelectedConf)

/-- Class ID the spec assigns to each selected conference:
KDD (column 0) ↦ 0, ICML (column 11) ↦ 1, VLDB (column 13) ↦ 2. -/
def classOf (c : Nat) : Nat := if c = 0 then 0 else if c = 11 then 1 else 2

/-- Concrete two-paper `PvsC` CSR matrix: paper 0 has conferences 0 and 5,
paper 1 has conference 11. -/
def pvcEx : CSR := ⟨[0, 2, 3], [0, 5, 11]⟩

/-- Concrete `PvsC` CSR matrix in which every paper has exactly one
conference: paper 0 in conference 11, paper 1 in conference 5. -/
def pvcOne : CSR := ⟨[0, 1, 2], [11, 5]⟩

/-! ## Heterogeneous graph model

`dgl.heterograph` and the message-passing primitives live in the DGL
library, outside this repository's sources; the container below is
modelled from the spec (§3, §4.1): typed node spaces, canonical edge
types with edge lists, and a per-type per-name node feature store. -/

/-- Modelled from the spec: a canonical edge type
`(src_type, relation_name, dst_type)` (spec §3). -/
structure CEType where
  src : String
  rel : String
  dst : String
deriving DecidableEq

/-- Association-list lookup returning the first binding of a key. -/
def alookup {κ β : Type _} [DecidableEq κ] (k : κ) : List (κ × β) → Option β
  | [] => none
  | p :: ps => if p.1 = k then some p.2 else alookup k ps

/-- Per-type, per-name node feature store (spec §3): maps
`(node_type, feature_name)` to a dense matrix. -/
abbrev Store := List ((String × String) × Mat)

/-- Writing a feature replaces any previous binding of the same key. -/
def Store.insert (st : Store) (k : String × String) (M : Mat) : Store :=
  (k, M) :: st

/-- Modelled from the spec: a heterograph (spec §3) — node types, canonical
edge types, per-type node counts, per-canonical-edge-type edge lists, and
the transient feature store (`G.nodes[t].data`). -/
structure HeteroGraph where
  ntypes : List String
  cetypes : List CEType
  nnodes : List (String × Nat)
  edges : List (CEType × List (Nat × Nat))
  store : Store
deriving DecidableEq

/-- Number of nodes of a type (`G.number_of_nodes(t)`). -/
def numNodes (G : HeteroGraph) (t : String) : Nat := (alookup t G.nnodes).getD 0

/-- Edge list of a canonical edge type, as `(src_id, dst_id)` pairs. -/
def edgesOf (G : HeteroGraph) (c : CEType) : List (Nat × Nat) :=
  (alookup c G.edges).getD []

/-- Option-valued map over a list, failing if any element fails. -/
def optMap {α β : Type _} (f : α → Option β) : List α → Option (List β)
  | [] => some []
  | x :: xs => (f x).bind (fun y => (optMap f xs).map (fun ys => y :: ys))

/-- Keys of a Python dict in insertion order: first occurrence kept. -/
def dedupAux (seen : List String) : List String → List String
  | [] => []
  | x :: xs => if x ∈ seen then dedupAux seen xs else x :: dedupAux (x :: seen) xs

/-- Scratch feature key used by `HeteroRGCNLayer.forward` (cell 24):
`G.nodes[srctype].data['Wh_' + etype] = Wh` stores under the source node
type and a name derived from the relation name alone. -/
def scratchKey (c : CEType) : String × String := (c.src, "Wh_" ++ c.rel)

/-- The transformed source feature of one canonical edge type in cell 24:
`Wh = self.weight[etype](feat_dict[srctype])`; fails if the relation has no
weight or the source type has no input feature. -/
def whFor (w : List (String × LinLayer)) (feat : List (String × Mat))
    (c : CEType) : Option Mat :=
  (alookup c.rel w).bind (fun L => (alookup c.src feat).map (fun F => linMap L F))

/-- The per-canonical-edge-type loop of cell 24: compute `Wh` and store it
on the graph under `scratchKey`. -/
def writeWhs (w : List (String × LinLayer)) (feat : List (String × Mat)) :
    List CEType → Store → Option Store
  | [], st => some st
  | c :: cs, st =>
    (whFor w feat c).bind (fun Wh => writeWhs w feat cs (Store.insert st (scratchKey c) Wh))

/-- Modelled from the spec: resolution of a bare relation name to a
canonical edge type; fails (`AmbiguousRelation` / `UnknownRelation`) unless
the name occurs in exactly one canonical edge type (spec §4.1). -/
def resolveRel (G : HeteroGraph) (e : String) : Option CEType :=
  if (G.cetypes.filter (fun c => c.rel == e)).length = 1 then
    (G.cetypes.filter (fun c => c.rel == e)).head?
  else none

/-- Row of a matrix by index (out-of-range gives the empty row). -/
def getRow (M : Mat) (i : Nat) : List ℚ := M.getD i []

/-- Width of a matrix, read off its first row. -/
def matWidth (M : Mat) : Nat := (M.headD []).length

/-- Modelled from the spec: the per-relation aggregate of
`(fn.copy_u(feat, 'm'), fn.mean('m', 'h'))` (spec §4.2): for every
destination `v < nd`, the arithmetic mean `sum / max(count, 1)` of the
source rows of the in-edges of `v`; an isolated destination receives the
zero vector of width `w`. -/
def aggMean (M : Mat) (w : Nat) (E : List (Nat × Nat)) (nd : Nat) : Mat :=
  (List.range nd).map (fun v =>
    let msgs := (E.filter (fun e => e.2 == v)).map (fun e => getRow M e.1)
    vecScale (1 / ((max msgs.length 1 : Nat) : ℚ)) (msgs.foldl vecAdd (vecZero w)))

/-- Per-relation aggregate of one canonical edge type, reading the stored
scratch feature; fails with `MissingFeature` if it was never written. -/
def aggFor (G : HeteroGraph) (st : Store) (c : CEType) : Option Mat :=
  (alookup (scratchKey c) st).map
    (fun M => aggMean M (matWidth M) (edgesOf G c) (numNodes G c.dst))

/-- Element-wise sum of the per-relation aggregates targeting destination
type `d` (cross-reducer `sum`, spec §4.2 step 2). -/
def sumAggs (d : String) (aggs : List (String × Mat)) : Mat :=
  match aggs.filter (fun p => p.1 == d) with
  | [] => []
  | x :: rest => rest.foldl (fun A p => matAdd A p.2) x.2

/-- Write the combined aggregate to feature `h` of every destination type
(spec §4.2 step 3). -/
def writeHAll (aggs : List (String × Mat)) : List String → Store → Store
  | [], st => st
  | d :: rest, st => writeHAll aggs rest (Store.insert st (d, "h") (sumAggs d aggs))

/-- Modelled from the spec: `G.multi_update_all(funcs, 'sum')` (spec §4.2)
for the funcs built in cell 24 — keyed by bare relation names, message
`copy_u` of the relation's scratch feature, reduce `mean` into `h`, and
cross-reducer `sum`.  Each name must resolve to a unique canonical edge
type and each scratch feature must be present. -/
def multiUpdateAllSum (G : HeteroGraph) (st : Store) (names : List String) :
    Option Store :=
  (optMap (resolveRel G) names).bind (fun cs =>
    (optMap (fun c => (aggFor G st c).map (fun A => (c.dst, A))) cs).map (fun aggs =>
      writeHAll aggs (dedupAux [] (cs.map (fun c => c.dst))) st))

/-- The `HeteroRGCNLayer` of cell 24: one `nn.Linear` per relation name
(`self.weight = nn.ModuleDict({name : nn.Linear(in_size, out_size) for name
in etypes})`). -/
structure HeteroRGCNLayer where
  weight : List (String × LinLayer)
deriving DecidableEq

/-- The `forward` of cell 24: for every canonical edge type store
`Wh_<etype>` on the source type, build the per-relation-name funcs dict,
run `multi_update_all(funcs, 'sum')`, and return
`{ntype : G.nodes[ntype].data['h'] for ntype in G.ntypes}` — reading `h`
for every node type, which fails if a node type has no `h` feature. -/
def HeteroRGCNLayer.forward (layer : HeteroRGCNLayer) (G : HeteroGraph)
    (feat : List (String × Mat)) : Option (List (String × Mat) × HeteroGraph) :=
  (writeWhs layer.weight feat G.cetypes G.store).bind (fun st1 =>
    (multiUpdateAllSum G st1 (dedupAux [] (G.cetypes.map (fun c => c.rel)))).bind
      (fun st2 =>
        (optMap (fun t => (alookup (t, "h") st2).map (fun M => (t, M))) G.ntypes).map
          (fun out => (out, { G with store := st2 }))))

/-- The element-wise Leaky-ReLU applied between the two layers in cell 26:
`h_dict = {k : F.leaky_relu(h) for k, h in h_dict.items()}`. -/
def mapLeaky (h : List (String × Mat)) : List (String × Mat) :=
  h.map (fun p => (p.1, p.2.map (fun row => row.map leakyRelu)))

/-- The `HeteroRGCN` model of cell 26: two layers plus the trainable
per-type embedding dictionary. -/
structure HeteroRGCN where
  layer1 : HeteroRGCNLayer
  layer2 : HeteroRGCNLayer
  embed : List (String × Mat)
deriving DecidableEq

/-- The `forward` of cell 26: layer 1 on the embeddings, Leaky-ReLU on
every tensor of the result, layer 2, then return `h_dict['paper']`. -/
def HeteroRGCN.forward (model : HeteroRGCN) (G : HeteroGraph) :
    Option (Mat × HeteroGraph) :=
  (model.layer1.forward G model.embed).bind (fun p =>
    (model.layer2.forward p.2 (mapLeaky p.1)).bind (fun q =>
      (alookup "paper" q.1).map (fun M => (M, q.2))))


/-! ## Concrete scenarios -/

/-- Identity linear layer on 2-dimensional features, with zero bias. -/
def idLin2 : LinLayer := ⟨[[1, 0], [0, 1]], [0, 0]⟩

/-- Identity linear layer on 1-dimensional features, with zero bias. -/
def idLin1 : LinLayer := ⟨[[1]], [0]⟩

/-- Scenario S1 of the spec: the tiny user-movie graph of cell 4, with
`user = 3`, `movie = 2`, `(user, +1, movie) = [(0,0),(0,1),(1,0)]` and
`(user, -1, movie) = [(2,1)]`, empty feature store. -/
def GS1 : HeteroGraph :=
  ⟨["user", "movie"],
   [⟨"user", "+1", "movie"⟩, ⟨"user", "-1", "movie"⟩],
   [("user", 3), ("movie", 2)],
   [(⟨"user", "+1", "movie"⟩, [(0, 0), (0, 1), (1, 0)]),
    (⟨"user", "-1", "movie"⟩, [(2, 1)])],
   []⟩

/-- Identity weights for the two relations of scenario S1. -/
def wS1 : List (String × LinLayer) := [("+1", idLin2), ("-1", idLin2)]

/-- The user features of scenario S1. -/
def featS1 : List (String × Mat) := [("user", [[1, 0], [0, 1], [1, 1]])]

/-- Scenario S2 of the spec: `(paper, citing, paper)` with `n_paper = 3`
and the single edge `(0, 1)`, empty feature store. -/
def GS2 : HeteroGraph :=
  ⟨["paper"], [⟨"paper", "citing", "paper"⟩], [("paper", 3)],
   [(⟨"paper", "citing", "paper"⟩, [(0, 1)])], []⟩

/-- Identity weight for the single relation of scenario S2. -/
def wS2 : List (String × LinLayer) := [("citing", idLin1)]

/-- The paper features of scenario S2: `[[1],[2],[3]]`. -/
def featS2 : List (String × Mat) := [("paper", [[1], [2], [3]])]

/-- A two-layer model over scenario S2 with identity weights and the S2
features as embeddings. -/
def modelS2 : HeteroRGCN := ⟨⟨wS2⟩, ⟨wS2⟩, featS2⟩

/-- A heterograph with one canonical edge type `(A, r, B)` whose source
type `A` is not the destination of any canonical edge type; the input
feature dictionary covers the only source type `A`. -/
def Gc1 : HeteroGraph :=
  ⟨["A", "B"], [⟨"A", "r", "B"⟩], [("A", 1), ("B", 1)],
   [(⟨"A", "r", "B"⟩, [(0, 0)])], []⟩

/-- Weights for the single relation of `Gc1`. -/
def wC1 : List (String × LinLayer) := [("r", idLin1)]

/-- Feature dictionary covering every source type of `Gc1`. -/
def featC1 : List (String × Mat) := [("A", [[1]])]


/-- The feature store of `GS2` after one forward pass of the identity
layer: the scratch feature and the written `h` feature. -/
def stS2post : Store :=
  [(("paper", "h"), [[0], [1], [0]]), (("paper", "Wh_citing"), [[1], [2], [3]])]

/-- The graph `GS2` as returned by the forward pass: same topology, the
feature store now holding the scratch and `h` features. -/
def GS2post : HeteroGraph := { GS2 with store := stS2post }

/-- The output dictionary of the forward pass on `GS2`. -/
def outS2 : List (String × Mat) := [("paper", [[0], [1], [0]])]


/-- The feature store of `GS2` after only the Wh-writing loop. -/
def stS2mid : Store := [(("paper", "Wh_citing"), [[1], [2], [3]])]


/-- The feature store of `GS2` after the full two-layer model pass. -/
def stS2final : Store :=
  [(("paper", "h"), [[0], [0], [0]]), (("paper", "Wh_citing"), [[0], [1], [0]]),
   (("paper", "h"), [[0], [1], [0]]), (("paper", "Wh_citing"), [[1], [2], [3]])]

/-- The graph `GS2` as returned by the full two-layer model pass. -/
def GS2final : HeteroGraph := { GS2 with store := stS2final }

/-! ## Theorems -/

/-- The remap of cell 22 never produces the value 11. -/
theorem remap_ne_eleven (a : Nat) : remap a ≠ 11 := by
  unfold remap
  split
  · omega
  · split <;> omega

/-- The remap of cell 22 never produces the value 13. -/
theorem remap_ne_thirteen (a : Nat) : remap a ≠ 13 := by
  unfold remap
  split
  · omega
  · split <;> omega

/-- On the three selected conference columns the cell-22 remap computes
exactly the class IDs KDD=0, ICML=1, VLDB=2. -/
theorem remap_eq_classOf (c : Nat) (h : isSelectedConf c = true) :
    remap c = classOf c ∧ classOf c < 3 := by
  unfold isSelectedConf at h
  simp only [Bool.or_eq_true, beq_iff_eq] at h
  rcases h with (h | h) | h <;> subst h <;> decide

/-- C10: label generation aliases rather than copies: the labels vector is
the (remapped) indices array of the CSR matrix `pvc`, and the in-place
remappings (11 to 1, 13 to 2) mutate `pvc` itself, so that whenever the
original `PvsC` had an ICML (11) or VLDB (13) incidence, `pvc` after label
generation differs from the original matrix. -/
theorem labels_alias_mutates_pvc (m : CSR)
    (h : 11 ∈ m.indices ∨ 13 ∈ m.indices) :
    labelsOf m = (pvcAfter m).indices ∧ pvcAfter m ≠ m := by
  refine ⟨rfl, ?_⟩
  intro heq
  have hidx : m.indices.map remap = m.indices := congrArg CSR.indices heq
  rcases h with h11 | h13
  · rw [← hidx] at h11
    obtain ⟨a, _, ha⟩ := List.mem_map.mp h11
    exact remap_ne_eleven a ha
  · rw [← hidx] at h13
    obtain ⟨a, _, ha⟩ := List.mem_map.mp h13
    exact remap_ne_thirteen a ha

/-- Witness for C10, at the concrete CSR matrix `pvcEx`. -/
theorem labels_alias_mutates_pvc_witness :
    labelsOf pvcEx = (pvcAfter pvcEx).indices ∧ pvcAfter pvcEx ≠ pvcEx :=
  labels_alias_mutates_pvc pvcEx (Or.inl (by decide))

/-- Counterexample to C3: on `pvcEx`, paper 1 is in the split population
(it is published at conference 11 = ICML, whose class is 1), but
`labels[1]` is the remap of the second incidence of the matrix, namely
conference 5, which is neither paper 1's class nor in {0, 1, 2}. -/
theorem labels_misindexed_counterexample :
    1 ∈ selectedPapers pvcEx ∧ rowConfs pvcEx 1 = [11] ∧ classOf 11 = 1 ∧
    (labelsOf pvcEx).getD 1 0 = 5 ∧
    ¬((labelsOf pvcEx).getD 1 0 = 0 ∨ (labelsOf pvcEx).getD 1 0 = 1 ∨
      (labelsOf pvcEx).getD 1 0 = 2) := by
  decide

/-- C3 (amended): when every paper has exactly one conference incidence
(i.e. `indptr = [0, 1, …, n]`, which makes incidence index and paper index
coincide), every split index `p` has a unique conference `c` among
{KDD=0, ICML=11, VLDB=13}, and `labels[p]` is the class ID of that
conference, lying in {0, 1, 2}. -/
theorem labels_correct_when_one_conf_per_paper (m : CSR)
    (hp : m.indptr = List.range (m.indices.length + 1))
    (p : Nat) (hmem : p ∈ selectedPapers m) :
    ∃ c, rowConfs m p = [c] ∧ isSelectedConf c = true ∧
      (labelsOf m).getD p 0 = classOf c ∧ classOf c < 3 := by
  obtain ⟨hpr, hany⟩ := List.mem_filter.mp hmem
  have hlen : m.indptr.length = m.indices.length + 1 := by
    rw [hp]; exact List.length_range _
  have hpn : p < m.indices.length := by
    have := List.mem_range.mp hpr
    omega
  have hip : m.indptr.getD p 0 = p := by
    rw [hp, List.getD_eq_getElem _ _ (by simp; omega)]
    apply List.getElem_range
  have hip1 : m.indptr.getD (p + 1) 0 = p + 1 := by
    rw [hp, List.getD_eq_getElem _ _ (by simp; omega)]
    apply List.getElem_range
  have hrow : rowConfs m p = [m.indices[p]] := by
    unfold rowConfs
    rw [hip, hip1, Nat.add_sub_cancel_left, List.drop_eq_getElem_cons hpn]
    rfl
  have hsel : isSelectedConf m.indices[p] = true := by
    rw [hrow] at hany
    simpa using hany
  obtain ⟨hcls, hlt⟩ := remap_eq_classOf m.indices[p] hsel
  refine ⟨m.indices[p], hrow, hsel, ?_, hlt⟩
  unfold labelsOf
  rw [List.getD_eq_getElem _ _ (by simpa using hpn)]
  rw [← hcls]
  apply List.getElem_map

/-- Witness for the amended C3, at the concrete one-conference-per-paper
matrix `pvcOne` and split index 0. -/
theorem labels_correct_when_one_conf_per_paper_witness :
    ∃ c, rowConfs pvcOne 0 = [c] ∧ isSelectedConf c = true ∧
      (labelsOf pvcOne).getD 0 0 = classOf c ∧ classOf c < 3 :=
  labels_correct_when_one_conf_per_paper pvcOne (by decide) 0 (by decide)

/-- The scratch feature name determines the relation name: `Wh_` followed
by two different relation names gives two different strings. -/
theorem wh_name_inj (r1 r2 : String) (h : ("Wh_" ++ r1 : String) = "Wh_" ++ r2) :
    r1 = r2 := by
  have hd : ("Wh_" ++ r1).data = ("Wh_" ++ r2).data := congrArg String.data h
  rw [String.data_append, String.data_append] at hd
  exact String.ext (List.append_cancel_left hd)

/-- Counterexample to C1: on `Gc1` the feature dictionary `featC1` covers
every source node type and `B` is the destination of a canonical edge
type, yet `HeteroRGCNLayer.forward` returns no dictionary at all: the
final comprehension reads feature `h` for every node type, including the
source-only type `A`, for which no `h` was ever written. -/
theorem forward_output_types_counterexample :
    (⟨"A", "r", "B"⟩ : CEType) ∈ Gc1.cetypes ∧
    alookup "A" featC1 ≠ none ∧
    HeteroRGCNLayer.forward ⟨wC1⟩ Gc1 featC1 = none := by
  decide

/-- Counterexample to C2: the scratch slot `(srctype, 'Wh_' + etype)` is
keyed by source type and relation name alone, so the two distinct
canonical edge types `(A, r, B)` and `(A, r, C)` store their `Wh` under
the same slot: the key is not unique per canonical edge type. -/
theorem scratch_key_not_unique_counterexample :
    scratchKey ⟨"A", "r", "B"⟩ = scratchKey ⟨"A", "r", "C"⟩ ∧
    (⟨"A", "r", "B"⟩ : CEType) ≠ ⟨"A", "r", "C"⟩ := by
  decide

/-- C2 (amended): the scratch slot is keyed by the pair (source type,
relation name): two canonical edge types collide on it exactly when they
agree on both, and in that case the two stored `Wh` tensors are equal
(same weight applied to the same source features), so the overwrite loses
no information. -/
theorem scratch_key_per_src_and_rel (c1 c2 : CEType) :
    (scratchKey c1 = scratchKey c2 ↔ c1.src = c2.src ∧ c1.rel = c2.rel) ∧
    (c1.src = c2.src → c1.rel = c2.rel →
      ∀ (w : List (String × LinLayer)) (feat : List (String × Mat)),
        whFor w feat c1 = whFor w feat c2) := by
  constructor
  · constructor
    · intro h
      have h1 : c1.src = c2.src := congrArg Prod.fst h
      have h2 : ("Wh_" ++ c1.rel : String) = "Wh_" ++ c2.rel := congrArg Prod.snd h
      exact ⟨h1, wh_name_inj _ _ h2⟩
    · intro ⟨h1, h2⟩
      unfold scratchKey
      rw [h1, h2]
  · intro h1 h2 w feat
    unfold whFor
    rw [h1, h2]

/-- Witness for the amended C2, at two concrete canonical edge types
sharing source type and relation name. -/
theorem scratch_key_per_src_and_rel_witness :
    (scratchKey ⟨"A", "r", "B"⟩ = scratchKey ⟨"A", "r", "C"⟩ ↔
      ("A" : String) = "A" ∧ ("r" : String) = "r") ∧
    whFor wC1 featC1 ⟨"A", "r", "B"⟩ = whFor wC1 featC1 ⟨"A", "r", "C"⟩ := by
  have h := scratch_key_per_src_and_rel ⟨"A", "r", "B"⟩ ⟨"A", "r", "C"⟩
  exact ⟨h.1, h.2 rfl rfl wC1 featC1⟩

/-- C4: a destination node with no in-edges under a relation receives the
zero vector of the expected width from that relation's `mean` aggregate
(never a division by zero: the mean divides by `max(count, 1)`); and on
scenario S2 — `(paper, citing, paper)`, three papers, single edge `(0,1)`,
identity weights, features `[[1],[2],[3]]` — the one-layer pass outputs
`[[0],[1],[0]]`. -/
theorem isolated_destination_zero :
    (∀ (M : Mat) (w : Nat) (E : List (Nat × Nat)) (nd v : Nat), v < nd →
      E.filter (fun e => e.2 == v) = [] →
      (aggMean M w E nd).getD v [] = vecZero w) ∧
    (HeteroRGCNLayer.forward ⟨wS2⟩ GS2 featS2).map (fun p => p.1) =
      some [("paper", [[0], [1], [0]])] := by
  constructor
  · intro M w E nd v hv hE
    unfold aggMean
    rw [List.getD_eq_getElem _ _ (by simpa using hv)]
    simp only [List.getElem_map, List.getElem_range, hE, List.map_nil,
      List.foldl_nil, List.length_nil]
    simp [vecScale, vecZero]
  · norm_num [HeteroRGCNLayer.forward, writeWhs, whFor, alookup, wS2, GS2, featS2,
      idLin1, linMap, linApply, dot, multiUpdateAllSum, optMap, resolveRel, aggFor,
      aggMean, sumAggs, writeHAll, dedupAux, scratchKey, edgesOf, numNodes, getRow,
      matWidth, Store.insert, vecScale, vecAdd, vecZero, matAdd, List.range_succ,
      List.range_zero]

/-- Witness for C4, at the S2 relation data and isolated destination 0. -/
theorem isolated_destination_zero_witness :
    (aggMean [[1]] 1 [(0, 1)] 3).getD 0 [] = vecZero 1 :=
  isolated_destination_zero.1 [[1]] 1 [(0, 1)] 3 0 (by decide) (by decide)

/-- Counterexample to C5: running the cell-24 pipeline on scenario S1
(`Wh` writes followed by `multi_update_all` with cross-reducer sum and
identity weights), the stored `h` feature of type movie is
`[[1/2, 1/2], [2, 1]]`: movie 1 receives mean `[1, 0]` from `+1` plus mean
`[1, 1]` from `-1`, i.e. `[2, 1]`, not `[3/2, 3/2]` as the claim states. -/
theorem s1_movie_row_counterexample :
    ((writeWhs wS1 featS1 GS1.cetypes GS1.store).bind (fun st1 =>
      (multiUpdateAllSum GS1 st1
        (dedupAux [] (GS1.cetypes.map (fun c => c.rel)))).bind (fun st2 =>
        alookup ("movie", "h") st2)))
      = some [[1/2, 1/2], [2, 1]] ∧
    getRow [[(1 : ℚ)/2, 1/2], [2, 1]] 1 ≠ [3/2, 3/2] := by
  constructor
  · simp [writeWhs, whFor, alookup, wS1, GS1, featS1, idLin2, linMap,
      linApply, dot, multiUpdateAllSum, optMap, resolveRel, aggFor, aggMean,
      sumAggs, writeHAll, dedupAux, scratchKey, edgesOf, numNodes, getRow,
      matWidth, Store.insert, vecScale, vecAdd, vecZero, matAdd,
      List.range_succ, List.range_zero]
    norm_num
  · norm_num [getRow]

/-- C6: two canonical edge types with the same relation name read their
weight matrix from the same registry entry `weight[relation_name]`, and
perturbing that entry (binding the shared name to a new linear map `W2`)
changes the transformed features `Wh` of both canonical edge types
identically: both become `W2` applied to their source features. -/
theorem weight_sharing_by_relation_name (w : List (String × LinLayer))
    (feat : List (String × Mat)) (c1 c2 : CEType) (W2 : LinLayer)
    (h : c1.rel = c2.rel) :
    whFor w feat c1 =
      (alookup c1.rel w).bind (fun L => (alookup c1.src feat).map (linMap L)) ∧
    whFor w feat c2 =
      (alookup c1.rel w).bind (fun L => (alookup c2.src feat).map (linMap L)) ∧
    whFor ((c1.rel, W2) :: w) feat c1 = (alookup c1.src feat).map (linMap W2) ∧
    whFor ((c1.rel, W2) :: w) feat c2 = (alookup c2.src feat).map (linMap W2) := by
  unfold whFor
  rw [← h]
  refine ⟨rfl, rfl, ?_, ?_⟩ <;> simp [alookup]

/-- Witness for C6, at the two concrete canonical edge types
`(user, +1, movie)` and `(userB, +1, movieB)` sharing relation `+1`. -/
theorem weight_sharing_by_relation_name_witness :
    whFor wS1 featS1 ⟨"user", "+1", "movie"⟩ =
      (alookup "+1" wS1).bind (fun L => (alookup "user" featS1).map (linMap L)) ∧
    whFor wS1 featS1 ⟨"userB", "+1", "movieB"⟩ =
      (alookup "+1" wS1).bind (fun L => (alookup "userB" featS1).map (linMap L)) ∧
    whFor (("+1", idLin1) :: wS1) featS1 ⟨"user", "+1", "movie"⟩ =
      (alookup "user" featS1).map (linMap idLin1) ∧
    whFor (("+1", idLin1) :: wS1) featS1 ⟨"userB", "+1", "movieB"⟩ =
      (alookup "userB" featS1).map (linMap idLin1) :=
  weight_sharing_by_relation_name wS1 featS1 ⟨"user", "+1", "movie"⟩
    ⟨"userB", "+1", "movieB"⟩ idLin1 rfl

/-- The transformed feature of a canonical edge type depends on the input
feature dictionary only through the source type's entry. -/
theorem whFor_congr (w : List (String × LinLayer)) (c : CEType)
    (feat1 feat2 : List (String × Mat))
    (h : alookup c.src feat1 = alookup c.src feat2) :
    whFor w feat1 c = whFor w feat2 c := by
  unfold whFor
  rw [h]

/-- C7: relation isolation — for a heterograph whose only canonical edge
type is `(s, r, d)`, the entire result of `HeteroRGCNLayer.forward`
(including failure) depends on the input feature dictionary only through
the features of the source type `s`: two feature dictionaries agreeing on
`s` give identical outputs. -/
theorem relation_isolation (layer : HeteroRGCNLayer) (G : HeteroGraph)
    (s r d : String) (hG : G.cetypes = [⟨s, r, d⟩])
    (feat1 feat2 : List (String × Mat))
    (hf : alookup s feat1 = alookup s feat2) :
    layer.forward G feat1 = layer.forward G feat2 := by
  have hwh : whFor layer.weight feat1 ⟨s, r, d⟩ = whFor layer.weight feat2 ⟨s, r, d⟩ :=
    whFor_congr layer.weight ⟨s, r, d⟩ feat1 feat2 hf
  have hww : writeWhs layer.weight feat1 [⟨s, r, d⟩] G.store =
      writeWhs layer.weight feat2 [⟨s, r, d⟩] G.store := by
    simp only [writeWhs, hwh]
  unfold HeteroRGCNLayer.forward
  rw [hG, hww]

/-- Witness for C7: on `Gc1`, two feature dictionaries agreeing on the
source type `A` but differing on other types give the same output. -/
theorem relation_isolation_witness :
    HeteroRGCNLayer.forward ⟨wC1⟩ Gc1 [("A", [[1]]), ("B", [[9]])] =
      HeteroRGCNLayer.forward ⟨wC1⟩ Gc1 [("A", [[1]]), ("Z", [[7]])] :=
  relation_isolation ⟨wC1⟩ Gc1 "A" "r" "B" (by decide)
    [("A", [[1]]), ("B", [[9]])] [("A", [[1]]), ("Z", [[7]])] (by decide)

/-! ## Helper lemmas about the store, dict keys and option-valued maps -/

/-- A successful association-list lookup returns a binding of the list. -/
theorem alookup_mem {κ β : Type _} [DecidableEq κ] (k : κ) (l : List (κ × β))
    (v : β) (h : alookup k l = some v) : (k, v) ∈ l := by
  induction l with
  | nil => simp [alookup] at h
  | cons p ps ih =>
    rw [alookup] at h
    by_cases hpk : p.1 = k
    · rw [if_pos hpk] at h
      cases h
      have hp : (k, p.2) = p := by rw [← hpk]
      rw [hp]
      exact List.mem_cons_self _ _
    · rw [if_neg hpk] at h
      exact List.mem_cons_of_mem _ (ih h)

/-- A key occurring among the keys of an association list is found. -/
theorem alookup_isSome_of_mem_keys {κ β : Type _} [DecidableEq κ] (k : κ)
    (l : List (κ × β)) (h : k ∈ l.map Prod.fst) : (alookup k l).isSome := by
  induction l with
  | nil => simp at h
  | cons p ps ih =>
    rw [alookup]
    by_cases hpk : p.1 = k
    · rw [if_pos hpk]; rfl
    · rw [if_neg hpk]
      rcases List.mem_map.mp h with ⟨q, hq, hqk⟩
      rcases List.mem_cons.mp hq with hq1 | hq2
      · exact absurd (hq1 ▸ hqk) hpk
      · exact ih (List.mem_map.mpr ⟨q, hq2, hqk⟩)

/-- Membership in the first-occurrence deduplication. -/
theorem mem_dedupAux (x : String) : ∀ (l seen : List String),
    x ∈ dedupAux seen l ↔ (x ∈ l ∧ x ∉ seen) := by
  intro l
  induction l with
  | nil => intro seen; simp [dedupAux]
  | cons a xs ih =>
    intro seen
    rw [dedupAux]
    by_cases ha : a ∈ seen
    · rw [if_pos ha, ih]
      constructor
      · rintro ⟨h1, h2⟩
        exact ⟨List.mem_cons_of_mem _ h1, h2⟩
      · rintro ⟨h1, h2⟩
        rcases List.mem_cons.mp h1 with h1 | h1
        · exact absurd (h1 ▸ ha) h2
        · exact ⟨h1, h2⟩
    · rw [if_neg ha]
      constructor
      · intro h
        rcases List.mem_cons.mp h with h | h
        · exact ⟨h ▸ List.mem_cons_self a xs, h ▸ ha⟩
        · rcases (ih (a :: seen)).mp h with ⟨h1, h2⟩
          exact ⟨List.mem_cons_of_mem _ h1,
            fun hx => h2 (List.mem_cons_of_mem _ hx)⟩
      · rintro ⟨h1, h2⟩
        rcases List.mem_cons.mp h1 with h1 | h1
        · exact h1 ▸ List.mem_cons_self a _
        · by_cases hxa : x = a
          · exact hxa ▸ List.mem_cons_self a _
          · exact List.mem_cons_of_mem _ ((ih (a :: seen)).mpr
              ⟨h1, fun hx => (List.mem_cons.mp hx).elim hxa h2⟩)

/-- Inversion of a successful `optMap` at a cons cell. -/
theorem optMap_cons_eq_some {α β : Type _} (f : α → Option β) (x : α)
    (xs : List α) (ys : List β) (h : optMap f (x :: xs) = some ys) :
    ∃ y ys2, f x = some y ∧ optMap f xs = some ys2 ∧ ys = y :: ys2 := by
  rw [optMap] at h
  cases hf : f x with
  | none => rw [hf, Option.none_bind'] at h; cases h
  | some y =>
    rw [hf, Option.some_bind'] at h
    cases ho : optMap f xs with
    | none => rw [ho, Option.map_none'] at h; cases h
    | some ys2 =>
      rw [ho, Option.map_some'] at h
      cases h
      exact ⟨y, ys2, rfl, rfl, rfl⟩

/-- A successful `optMap` succeeds on every element of its input. -/
theorem optMap_mem_of_mem {α β : Type _} (f : α → Option β) :
    ∀ (l : List α) (ys : List β), optMap f l = some ys →
      ∀ x ∈ l, ∃ y, f x = some y ∧ y ∈ ys := by
  intro l
  induction l with
  | nil => intro ys _ x hx; simp at hx
  | cons a xs ih =>
    intro ys h x hx
    obtain ⟨y, ys2, hy, hys2, rfl⟩ := optMap_cons_eq_some f a xs ys h
    rcases List.mem_cons.mp hx with hx | hx
    · exact ⟨y, hx ▸ hy, List.mem_cons_self _ _⟩
    · obtain ⟨y2, hy2, hmem⟩ := ih ys2 hys2 x hx
      exact ⟨y2, hy2, List.mem_cons_of_mem _ hmem⟩

/-- Every element of a successful `optMap` output comes from an input. -/
theorem optMap_mem {α β : Type _} (f : α → Option β) :
    ∀ (l : List α) (ys : List β), optMap f l = some ys →
      ∀ y ∈ ys, ∃ x, x ∈ l ∧ f x = some y := by
  intro l
  induction l with
  | nil =>
    intro ys h y hy
    rw [optMap] at h
    cases h
    simp at hy
  | cons a xs ih =>
    intro ys h y hy
    obtain ⟨y1, ys2, hy1, hys2, rfl⟩ := optMap_cons_eq_some f a xs ys h
    rcases List.mem_cons.mp hy with hy | hy
    · exact ⟨a, List.mem_cons_self _ _, hy ▸ hy1⟩
    · obtain ⟨x, hx, hfx⟩ := ih ys2 hys2 y hy
      exact ⟨x, List.mem_cons_of_mem _ hx, hfx⟩

/-- When `f` tags its output with the input, the output keys of a
successful `optMap` are exactly the input list. -/
theorem optMap_keys {α β : Type _} (f : α → Option β) (g : β → α)
    (hfg : ∀ x y, f x = some y → g y = x) :
    ∀ (l : List α) (ys : List β), optMap f l = some ys → ys.map g = l := by
  intro l
  induction l with
  | nil => intro ys h; rw [optMap] at h; cases h; rfl
  | cons a xs ih =>
    intro ys h
    obtain ⟨y, ys2, hy, hys2, rfl⟩ := optMap_cons_eq_some f a xs ys h
    simp only [List.map_cons, hfg a y hy, ih ys2 hys2]

/-- `optMap` succeeds when every element succeeds. -/
theorem optMap_isSome {α β : Type _} (f : α → Option β) :
    ∀ l : List α, (∀ x ∈ l, (f x).isSome) → ∃ ys, optMap f l = some ys := by
  intro l
  induction l with
  | nil => exact fun _ => ⟨[], rfl⟩
  | cons a xs ih =>
    intro h
    obtain ⟨y, hy⟩ := Option.isSome_iff_exists.mp (h a (List.mem_cons_self _ _))
    obtain ⟨ys, hys⟩ := ih (fun x hx => h x (List.mem_cons_of_mem _ hx))
    exact ⟨y :: ys, by rw [optMap, hy, hys]; rfl⟩

/-- A successfully resolved relation name names a canonical edge type of
the graph, whose relation name it is. -/
theorem resolveRel_eq_some (G : HeteroGraph) (e : String) (c : CEType)
    (h : resolveRel G e = some c) : c ∈ G.cetypes ∧ c.rel = e := by
  unfold resolveRel at h
  split at h
  · have hmem : c ∈ G.cetypes.filter (fun c2 => c2.rel == e) := by
      rcases List.head?_eq_some_iff.mp h with ⟨t, ht⟩
      rw [ht]
      exact List.mem_cons_self _ _
    have := List.mem_filter.mp hmem
    exact ⟨this.1, by simpa using this.2⟩
  · cases h

/-- Resolution is unique: every canonical edge type with the resolved name
is the resolved one. -/
theorem resolveRel_unique (G : HeteroGraph) (e : String) (y c : CEType)
    (hy : resolveRel G e = some y) (hc : c ∈ G.cetypes) (he : c.rel = e) :
    c = y := by
  unfold resolveRel at hy
  split at hy
  case isTrue hlen =>
    obtain ⟨z, hz⟩ := List.length_eq_one.mp hlen
    rw [hz] at hy
    cases hy
    have : c ∈ G.cetypes.filter (fun c2 => c2.rel == e) :=
      List.mem_filter.mpr ⟨hc, by simpa using he⟩
    rw [hz] at this
    simpa using this
  case isFalse => cases hy

/-- A relation name whose filter is a singleton resolves to it. -/
theorem resolveRel_of_filter_eq (G : HeteroGraph) (c : CEType)
    (h : G.cetypes.filter (fun c2 => c2.rel == c.rel) = [c]) :
    resolveRel G c.rel = some c := by
  unfold resolveRel
  rw [h]
  rfl

/-- The scratch names of two relation names differ when the names differ. -/
theorem wh_ne_h (r : String) : ("Wh_" ++ r : String) ≠ "h" := by
  intro h
  have hd := congrArg String.data h
  rw [String.data_append] at hd
  simp at hd

/-- Two canonical edge types with the same scratch key have the same
transformed feature: the scratch key determines source type and relation
name, and `whFor` depends only on those. -/
theorem whFor_eq_of_scratchKey_eq (w : List (String × LinLayer))
    (feat : List (String × Mat)) (c1 c2 : CEType)
    (h : scratchKey c1 = scratchKey c2) : whFor w feat c1 = whFor w feat c2 := by
  have h1 : c1.src = c2.src := congrArg Prod.fst h
  have h2 : c1.rel = c2.rel := wh_name_inj _ _ (congrArg Prod.snd h)
  unfold whFor
  rw [h1, h2]

/-- Frame property of the Wh-writing loop: keys that are no canonical edge
type's scratch key are untouched. -/
theorem writeWhs_find_other (w : List (String × LinLayer))
    (feat : List (String × Mat)) :
    ∀ (cs : List CEType) (st st' : Store), writeWhs w feat cs st = some st' →
      ∀ k : String × String, (∀ c ∈ cs, k ≠ scratchKey c) →
      alookup k st' = alookup k st := by
  intro cs
  induction cs with
  | nil => intro st st' h k _; cases h; rfl
  | cons c cs2 ih =>
    intro st st' h k hk
    rw [writeWhs] at h
    cases hwh : whFor w feat c with
    | none => rw [hwh, Option.none_bind'] at h; cases h
    | some Wh =>
      rw [hwh, Option.some_bind'] at h
      rw [ih _ _ h k (fun c2 hc2 => hk c2 (List.mem_cons_of_mem _ hc2))]
      rw [Store.insert, alookup,
        if_neg (fun hh => hk c (List.mem_cons_self _ _) hh.symm)]

/-- After the Wh-writing loop, the scratch key of every processed canonical
edge type holds exactly its transformed feature. -/
theorem writeWhs_scratch (w : List (String × LinLayer))
    (feat : List (String × Mat)) :
    ∀ (cs : List CEType) (st st' : Store), writeWhs w feat cs st = some st' →
      ∀ c ∈ cs, alookup (scratchKey c) st' = whFor w feat c := by
  intro cs
  induction cs with
  | nil => intro st st' _ c hc; simp at hc
  | cons c0 cs2 ih =>
    intro st st' h c hc
    rw [writeWhs] at h
    cases hwh : whFor w feat c0 with
    | none => rw [hwh, Option.none_bind'] at h; cases h
    | some Wh0 =>
      rw [hwh, Option.some_bind'] at h
      rcases List.mem_cons.mp hc with rfl | hc2
      · by_cases hex : ∃ c2 ∈ cs2, scratchKey c2 = scratchKey c
        · obtain ⟨c2, hc2, hk2⟩ := hex
          have h2 := ih _ _ h c2 hc2
          rw [hk2] at h2
          rw [h2, whFor_eq_of_scratchKey_eq w feat c2 c hk2]
        · push_neg at hex
          rw [writeWhs_find_other w feat cs2 _ _ h (scratchKey c)
            (fun c2 h2 => fun he => hex c2 h2 he.symm)]
          rw [Store.insert, alookup, if_pos rfl, hwh]
      · exact ih _ _ h c hc2

/-- Frame property of the cross-reducer writes: keys other than the written
`(d, h)` keys are untouched. -/
theorem writeHAll_find_other (aggs : List (String × Mat)) :
    ∀ (dsts : List String) (st : Store) (k : String × String),
      (∀ d ∈ dsts, k ≠ (d, "h")) →
      alookup k (writeHAll aggs dsts st) = alookup k st := by
  intro dsts
  induction dsts with
  | nil => intro st k _; rfl
  | cons d ds ih =>
    intro st k hk
    rw [writeHAll]
    rw [ih _ _ (fun d2 hd2 => hk d2 (List.mem_cons_of_mem _ hd2))]
    rw [Store.insert, alookup,
      if_neg (fun hh => hk d (List.mem_cons_self _ _) hh.symm)]

/-- Value of the `h` feature after the cross-reducer writes. -/
theorem writeHAll_find_h (aggs : List (String × Mat)) :
    ∀ (dsts : List String) (st : Store) (d : String),
      alookup (d, "h") (writeHAll aggs dsts st) =
        if d ∈ dsts then some (sumAggs d aggs) else alookup (d, "h") st := by
  intro dsts
  induction dsts with
  | nil => intro st d; simp [writeHAll]
  | cons d0 ds ih =>
    intro st d
    rw [writeHAll, ih]
    by_cases hd : d ∈ ds
    · rw [if_pos hd, if_pos (List.mem_cons_of_mem _ hd)]
    · rw [if_neg hd]
      by_cases hdd : d = d0
      · subst hdd
        rw [if_pos (List.mem_cons_self _ _), Store.insert, alookup, if_pos rfl]
      · rw [if_neg (fun hh => (List.mem_cons.mp hh).elim hdd hd),
          Store.insert, alookup,
          if_neg (fun hh => hdd (congrArg Prod.fst hh).symm)]

/-- Inversion of a successful `multi_update_all`. -/
theorem mua_eq_some (G : HeteroGraph) (st : Store) (names : List String)
    (st' : Store) (h : multiUpdateAllSum G st names = some st') :
    ∃ cs aggs, optMap (resolveRel G) names = some cs ∧
      optMap (fun c => (aggFor G st c).map (fun A => (c.dst, A))) cs = some aggs ∧
      st' = writeHAll aggs (dedupAux [] (cs.map (fun c => c.dst))) st := by
  unfold multiUpdateAllSum at h
  cases h1 : optMap (resolveRel G) names with
  | none => rw [h1, Option.none_bind'] at h; cases h
  | some cs =>
    rw [h1, Option.some_bind'] at h
    cases h2 : optMap (fun c => (aggFor G st c).map (fun A => (c.dst, A))) cs with
    | none => rw [h2, Option.map_none'] at h; cases h
    | some aggs =>
      rw [h2, Option.map_some'] at h
      cases h
      refine ⟨cs, aggs, rfl, ?_, rfl⟩
      first | rfl | exact h2

/-- Inversion of a successful layer forward pass. -/
theorem forward_eq_some (layer : HeteroRGCNLayer) (G : HeteroGraph)
    (feat : List (String × Mat)) (out : List (String × Mat)) (G' : HeteroGraph)
    (h : layer.forward G feat = some (out, G')) :
    ∃ st1 st2, writeWhs layer.weight feat G.cetypes G.store = some st1 ∧
      multiUpdateAllSum G st1 (dedupAux [] (G.cetypes.map (fun c => c.rel))) =
        some st2 ∧
      optMap (fun t => (alookup (t, "h") st2).map (fun M => (t, M))) G.ntypes =
        some out ∧
      G' = { G with store := st2 } := by
  unfold HeteroRGCNLayer.forward at h
  cases h1 : writeWhs layer.weight feat G.cetypes G.store with
  | none => rw [h1, Option.none_bind'] at h; cases h
  | some st1 =>
    rw [h1, Option.some_bind'] at h
    cases h2 : multiUpdateAllSum G st1
        (dedupAux [] (G.cetypes.map (fun c => c.rel))) with
    | none => rw [h2, Option.none_bind'] at h; cases h
    | some st2 =>
      rw [h2, Option.some_bind'] at h
      cases h3 : optMap (fun t => (alookup (t, "h") st2).map (fun M => (t, M)))
          G.ntypes with
      | none => rw [h3, Option.map_none'] at h; cases h
      | some out2 =>
        rw [h3, Option.map_some'] at h
        rw [Option.some.injEq] at h
        cases h
        refine ⟨st1, st2, rfl, ?_, ?_, rfl⟩
        · first | rfl | exact h2
        · first | rfl | exact h3

/-- C9: a successful `HeteroRGCNLayer.forward` leaves the graph's topology
(node types, canonical edge types, node counts, edge lists) unchanged; on
the feature store it changes at most the scratch keys
`(srctype, Wh_<etype>)` and the keys `(dsttype, h)` of the canonical edge
types; every canonical edge type's scratch key afterwards holds its
transformed feature `Wh`, and every destination type holds an `h`
feature — all still stored on the returned graph. -/
theorem forward_frame_effect (layer : HeteroRGCNLayer) (G : HeteroGraph)
    (feat : List (String × Mat)) (out : List (String × Mat)) (G' : HeteroGraph)
    (h : layer.forward G feat = some (out, G')) :
    G'.ntypes = G.ntypes ∧ G'.cetypes = G.cetypes ∧ G'.nnodes = G.nnodes ∧
    G'.edges = G.edges ∧
    (∀ k : String × String,
      (∀ c ∈ G.cetypes, k ≠ scratchKey c ∧ k ≠ (c.dst, "h")) →
      alookup k G'.store = alookup k G.store) ∧
    (∀ c ∈ G.cetypes, alookup (scratchKey c) G'.store = whFor layer.weight feat c) ∧
    (∀ c ∈ G.cetypes, ∃ M, alookup (c.dst, "h") G'.store = some M) := by
  obtain ⟨st1, st2, h1, h2, h3, rfl⟩ := forward_eq_some layer G feat out G' h
  obtain ⟨cs, aggs, hcs, haggs, hst2⟩ := mua_eq_some G st1 _ st2 h2
  subst hst2
  have hcs_sub : ∀ c2 ∈ cs, c2 ∈ G.cetypes := by
    intro c2 hc2
    obtain ⟨e, _, hres⟩ := optMap_mem (resolveRel G) _ cs hcs c2 hc2
    exact (resolveRel_eq_some G e c2 hres).1
  have hmem_cs : ∀ c ∈ G.cetypes, c ∈ cs := by
    intro c hc
    have hname : c.rel ∈ dedupAux [] (G.cetypes.map (fun c2 => c2.rel)) :=
      (mem_dedupAux _ _ _).mpr ⟨List.mem_map.mpr ⟨c, hc, rfl⟩, by simp⟩
    obtain ⟨y, hy, hymem⟩ := optMap_mem_of_mem (resolveRel G) _ cs hcs c.rel hname
    rw [resolveRel_unique G c.rel y c hy hc rfl]
    exact hymem
  refine ⟨rfl, rfl, rfl, rfl, ?_, ?_, ?_⟩
  · intro k hk
    show alookup k (writeHAll aggs (dedupAux [] (cs.map (fun c => c.dst))) st1) =
      alookup k G.store
    rw [writeHAll_find_other aggs _ _ _ ?hd]
    case hd =>
      intro d hd
      obtain ⟨hd1, _⟩ := (mem_dedupAux _ _ _).mp hd
      obtain ⟨c2, hc2, rfl⟩ := List.mem_map.mp hd1
      exact (hk c2 (hcs_sub c2 hc2)).2
    exact writeWhs_find_other layer.weight feat G.cetypes _ _ h1 k
      (fun c hc => (hk c hc).1)
  · intro c hc
    show alookup (scratchKey c)
        (writeHAll aggs (dedupAux [] (cs.map (fun c => c.dst))) st1) =
      whFor layer.weight feat c
    rw [writeHAll_find_other aggs _ _ _
      (fun d _ he => wh_ne_h c.rel (congrArg Prod.snd he))]
    exact writeWhs_scratch layer.weight feat G.cetypes _ _ h1 c hc
  · intro c hc
    have hdst : c.dst ∈ dedupAux [] (cs.map (fun c2 => c2.dst)) :=
      (mem_dedupAux _ _ _).mpr ⟨List.mem_map.mpr ⟨c, hmem_cs c hc, rfl⟩, by simp⟩
    show ∃ M, alookup (c.dst, "h")
        (writeHAll aggs (dedupAux [] (cs.map (fun c => c.dst))) st1) = some M
    rw [writeHAll_find_h, if_pos hdst]
    exact ⟨_, rfl⟩

/-- Witness for C9, at the concrete forward pass on scenario S2. -/
theorem forward_frame_effect_witness :
    GS2post.cetypes = GS2.cetypes ∧
    alookup (scratchKey ⟨"paper", "citing", "paper"⟩) GS2post.store =
      whFor wS2 featS2 ⟨"paper", "citing", "paper"⟩ ∧
    (∃ M, alookup ("paper", "h") GS2post.store = some M) := by
  have h := forward_frame_effect ⟨wS2⟩ GS2 featS2 outS2 GS2post (by
    simp [HeteroRGCNLayer.forward, writeWhs, whFor, alookup, wS2, GS2, featS2,
      idLin1, linMap, linApply, dot, multiUpdateAllSum, optMap, resolveRel,
      aggFor, aggMean, sumAggs, writeHAll, dedupAux, scratchKey, edgesOf,
      numNodes, getRow, matWidth, Store.insert, vecScale, vecAdd, vecZero,
      matAdd, List.range_succ, List.range_zero, GS2post, stS2post, outS2])
  exact ⟨h.2.1, h.2.2.2.2.2.1 ⟨"paper", "citing", "paper"⟩ (by decide),
    h.2.2.2.2.2.2 ⟨"paper", "citing", "paper"⟩ (by decide)⟩

/-- C5 (amended): with cross-reducer `sum`, the `h` feature that
`multi_update_all` stores for a destination type `d` is the element-wise
sum (`sumAggs`) of the per-relation mean aggregates (`aggFor`) of the
relations in funcs whose resolved canonical edge type targets `d`; on the
tiny user-movie scenario S1 with identity weights the stored feature of
type movie is `[[1/2, 1/2], [2, 1]]` — movie 0 gets `[1/2, 1/2]` as the
claim states, movie 1 gets `[2, 1]`, not `[3/2, 3/2]`. -/
theorem sum_across_relations (G : HeteroGraph) (st : Store)
    (names : List String) (st2 : Store) (d : String) (cs : List CEType)
    (aggs : List (String × Mat))
    (h : multiUpdateAllSum G st names = some st2)
    (hcs : optMap (resolveRel G) names = some cs)
    (haggs : optMap (fun c => (aggFor G st c).map (fun A => (c.dst, A))) cs =
      some aggs)
    (hd : d ∈ cs.map (fun c => c.dst)) :
    alookup (d, "h") st2 = some (sumAggs d aggs) ∧
    ((writeWhs wS1 featS1 GS1.cetypes GS1.store).bind (fun s1 =>
      (multiUpdateAllSum GS1 s1
        (dedupAux [] (GS1.cetypes.map (fun c => c.rel)))).bind (fun s2 =>
        alookup ("movie", "h") s2))) = some [[1/2, 1/2], [2, 1]] := by
  constructor
  · unfold multiUpdateAllSum at h
    rw [hcs, Option.some_bind', haggs, Option.map_some'] at h
    cases h
    rw [writeHAll_find_h,
      if_pos ((mem_dedupAux _ _ _).mpr ⟨hd, by simp⟩)]
  · simp [writeWhs, whFor, alookup, wS1, GS1, featS1, idLin2, linMap,
      linApply, dot, multiUpdateAllSum, optMap, resolveRel, aggFor, aggMean,
      sumAggs, writeHAll, dedupAux, scratchKey, edgesOf, numNodes, getRow,
      matWidth, Store.insert, vecScale, vecAdd, vecZero, matAdd,
      List.range_succ, List.range_zero]
    norm_num

/-- Witness for the amended C5, at the concrete S2 `multi_update_all`. -/
theorem sum_across_relations_witness :
    alookup ("paper", "h") stS2post =
      some (sumAggs "paper" [("paper", [[0], [1], [0]])]) ∧
    ((writeWhs wS1 featS1 GS1.cetypes GS1.store).bind (fun s1 =>
      (multiUpdateAllSum GS1 s1
        (dedupAux [] (GS1.cetypes.map (fun c => c.rel)))).bind (fun s2 =>
        alookup ("movie", "h") s2))) = some [[1/2, 1/2], [2, 1]] :=
  sum_across_relations GS2 stS2mid ["citing"] stS2post "paper"
    [⟨"paper", "citing", "paper"⟩] [("paper", [[0], [1], [0]])]
    (by simp [multiUpdateAllSum, optMap, resolveRel, aggFor, aggMean, sumAggs,
      writeHAll, dedupAux, scratchKey, edgesOf, numNodes, getRow, matWidth,
      alookup, GS2, stS2mid, stS2post, Store.insert, vecScale, vecAdd, vecZero,
      matAdd, List.range_succ, List.range_zero])
    (by simp [optMap, resolveRel, GS2, dedupAux])
    (by simp [optMap, aggFor, aggMean, alookup, scratchKey, edgesOf, numNodes,
      getRow, matWidth, GS2, stS2mid, Store.insert, vecScale, vecAdd, vecZero,
      List.range_succ, List.range_zero])
    (by decide)

/-! ## Shape lemmas -/

/-- Folding vector additions over vectors of width `w` keeps width `w`. -/
theorem foldl_vecAdd_length (w : Nat) :
    ∀ (msgs : List (List ℚ)) (v : List ℚ), v.length = w →
      (∀ m ∈ msgs, m.length = w) → (msgs.foldl vecAdd v).length = w := by
  intro msgs
  induction msgs with
  | nil => intro v hv _; exact hv
  | cons m ms ih =>
    intro v hv hm
    rw [List.foldl_cons]
    exact ih (vecAdd v m)
      (by rw [vecAdd, List.length_zipWith, hv, hm m (List.mem_cons_self _ _)];
          exact Nat.min_self w)
      (fun m2 hm2 => hm m2 (List.mem_cons_of_mem _ hm2))

/-- The per-relation mean aggregate has one row per destination node. -/
theorem aggMean_length (M : Mat) (w : Nat) (E : List (Nat × Nat)) (nd : Nat) :
    (aggMean M w E nd).length = nd := by
  simp [aggMean]

/-- Rows of the per-relation mean aggregate have the message width, when
the source matrix is rectangular of width `w` and edges are in range. -/
theorem aggMean_rows (M : Mat) (w : Nat) (E : List (Nat × Nat)) (nd ns : Nat)
    (hM : M.length = ns) (hrows : ∀ r ∈ M, r.length = w)
    (hE : ∀ e ∈ E, e.1 < ns) :
    ∀ row ∈ aggMean M w E nd, row.length = w := by
  intro row hrow
  unfold aggMean at hrow
  obtain ⟨v, _, hveq⟩ := List.mem_map.mp hrow
  rw [← hveq, vecScale, List.length_map]
  apply foldl_vecAdd_length
  · simp [vecZero]
  · intro m hm
    obtain ⟨e, he, hme⟩ := List.mem_map.mp hm
    have heE : e ∈ E := (List.mem_filter.mp he).1
    have hlt : e.1 < M.length := by rw [hM]; exact hE e heE
    rw [← hme, getRow, List.getD_eq_getElem _ _ hlt]
    exact hrows _ (List.getElem_mem hlt)

/-- Every row of a zipWith of two matrices comes from a row of each. -/
theorem mem_zipWith_vecAdd :
    ∀ (A B : Mat) (r : List ℚ), r ∈ List.zipWith vecAdd A B →
      ∃ a b, a ∈ A ∧ b ∈ B ∧ r = vecAdd a b := by
  intro A
  induction A with
  | nil => intro B r hr; simp at hr
  | cons a as ih =>
    intro B r hr
    cases B with
    | nil => simp at hr
    | cons b bs =>
      rw [List.zipWith_cons_cons] at hr
      rcases List.mem_cons.mp hr with hr | hr
      · exact ⟨a, b, List.mem_cons_self _ _, List.mem_cons_self _ _, hr⟩
      · obtain ⟨a2, b2, ha2, hb2, hr2⟩ := ih bs r hr
        exact ⟨a2, b2, List.mem_cons_of_mem _ ha2,
          List.mem_cons_of_mem _ hb2, hr2⟩

/-- Element-wise matrix addition of two rectangular matrices of the same
shape has that shape. -/
theorem matAdd_shape (n w : Nat) :
    ∀ (A B : Mat), A.length = n → B.length = n →
      (∀ r ∈ A, r.length = w) → (∀ r ∈ B, r.length = w) →
      (matAdd A B).length = n ∧ ∀ r ∈ matAdd A B, r.length = w := by
  intro A B hA hB hrA hrB
  constructor
  · rw [matAdd, List.length_zipWith, hA, hB]; exact Nat.min_self n
  · intro r hr
    rw [matAdd] at hr
    obtain ⟨a, b, ha, hb, hab⟩ := mem_zipWith_vecAdd A B r hr
    rw [hab, vecAdd, List.length_zipWith, hrA a ha, hrB b hb]
    exact Nat.min_self w

/-- Folding matrix additions over same-shaped matrices keeps the shape. -/
theorem foldl_matAdd_shape (n w : Nat) :
    ∀ (l : List (String × Mat)) (A : Mat), A.length = n →
      (∀ r ∈ A, r.length = w) →
      (∀ p ∈ l, p.2.length = n ∧ ∀ r ∈ p.2, r.length = w) →
      ((l.foldl (fun A2 p => matAdd A2 p.2) A).length = n ∧
        ∀ r ∈ l.foldl (fun A2 p => matAdd A2 p.2) A, r.length = w) := by
  intro l
  induction l with
  | nil => intro A hA hrA _; exact ⟨hA, hrA⟩
  | cons p ps ih =>
    intro A hA hrA hl
    rw [List.foldl_cons]
    have hp := hl p (List.mem_cons_self _ _)
    have hAp := matAdd_shape n w A p.2 hA hp.1 hrA hp.2
    exact ih (matAdd A p.2) hAp.1 hAp.2
      (fun q hq => hl q (List.mem_cons_of_mem _ hq))

/-- The cross-reducer sum of same-shaped per-relation aggregates for a
destination type has that shape. -/
theorem sumAggs_shape (d : String) (aggs : List (String × Mat)) (n w : Nat)
    (hsh : ∀ p ∈ aggs, p.1 = d → (p.2.length = n ∧ ∀ r ∈ p.2, r.length = w))
    (hne : ∃ p ∈ aggs, p.1 = d) :
    (sumAggs d aggs).length = n ∧ ∀ r ∈ sumAggs d aggs, r.length = w := by
  unfold sumAggs
  cases hf : aggs.filter (fun p => p.1 == d) with
  | nil =>
    obtain ⟨p, hp, hpd⟩ := hne
    have : p ∈ aggs.filter (fun p => p.1 == d) :=
      List.mem_filter.mpr ⟨hp, by simpa using hpd⟩
    rw [hf] at this
    simp at this
  | cons x rest =>
    have hxmem : x ∈ aggs.filter (fun p => p.1 == d) := by
      rw [hf]; exact List.mem_cons_self _ _
    have hx := List.mem_filter.mp hxmem
    have hxsh := hsh x hx.1 (by simpa using hx.2)
    apply foldl_matAdd_shape n w rest x.2 hxsh.1 hxsh.2
    intro p hp
    have hpmem : p ∈ aggs.filter (fun p => p.1 == d) := by
      rw [hf]; exact List.mem_cons_of_mem _ hp
    have hpf := List.mem_filter.mp hpmem
    exact hsh p hpf.1 (by simpa using hpf.2)

/-- Shape of a successfully transformed feature: one row per source node,
each row of the layer's output width, and the recorded matrix width is the
output width. -/
theorem whFor_shape (w : List (String × LinLayer)) (feat : List (String × Mat))
    (c : CEType) (M : Mat) (osz : Nat) (h : whFor w feat c = some M)
    (hw : ∃ L, alookup c.rel w = some L ∧ L.W.length = osz ∧ L.b.length = osz)
    (hfeat : ∃ F, alookup c.src feat = some F ∧ 0 < F.length) :
    M.length = ((alookup c.src feat).getD []).length ∧ matWidth M = osz ∧
      ∀ r ∈ M, r.length = osz := by
  obtain ⟨L, hL, hLW, hLb⟩ := hw
  obtain ⟨F, hF, hFpos⟩ := hfeat
  rw [whFor, hL, Option.some_bind', hF, Option.map_some'] at h
  cases h
  rw [hF]
  have hlin : ∀ x, (linApply L x).length = osz := by
    intro x
    rw [linApply, List.length_zipWith, hLW, hLb]
    exact Nat.min_self osz
  refine ⟨by simp [linMap], ?_, ?_⟩
  · cases F with
    | nil => simp at hFpos
    | cons F0 Fs => rw [linMap, List.map_cons, matWidth]; exact hlin F0
  · intro r hr
    rw [linMap] at hr
    obtain ⟨x, _, hx⟩ := List.mem_map.mp hr
    rw [← hx]
    exact hlin x

/-- The Wh-writing loop succeeds when every transformed feature exists. -/
theorem writeWhs_isSome (w : List (String × LinLayer))
    (feat : List (String × Mat)) :
    ∀ (cs : List CEType) (st : Store), (∀ c ∈ cs, (whFor w feat c).isSome) →
      ∃ st', writeWhs w feat cs st = some st' := by
  intro cs
  induction cs with
  | nil => intro st _; exact ⟨st, rfl⟩
  | cons c cs2 ih =>
    intro st h
    obtain ⟨Wh, hWh⟩ := Option.isSome_iff_exists.mp (h c (List.mem_cons_self _ _))
    obtain ⟨st', hst'⟩ := ih (Store.insert st (scratchKey c) Wh)
      (fun c2 hc2 => h c2 (List.mem_cons_of_mem _ hc2))
    exact ⟨st', by rw [writeWhs, hWh, Option.some_bind']; exact hst'⟩

/-- Totality and shape of a layer forward pass: when relation names are
unambiguous, every relation has a weight of output width `osz`, the input
features cover every source type with one row per (at least one) node, all
edges are in range, and every node type is the destination of some
canonical edge type, the forward pass succeeds, returns one entry per node
type, and every entry has shape `(num_nodes t, osz)`. -/
theorem layer_total_shape (layer : HeteroRGCNLayer) (G : HeteroGraph)
    (feat : List (String × Mat)) (osz : Nat)
    (hsing : ∀ c ∈ G.cetypes, G.cetypes.filter (fun c2 => c2.rel == c.rel) = [c])
    (hw : ∀ c ∈ G.cetypes, ∃ L, alookup c.rel layer.weight = some L ∧
      L.W.length = osz ∧ L.b.length = osz)
    (hfeat : ∀ c ∈ G.cetypes, ∃ F, alookup c.src feat = some F ∧
      F.length = numNodes G c.src ∧ 0 < numNodes G c.src)
    (hedges : ∀ c ∈ G.cetypes, ∀ e ∈ edgesOf G c, e.1 < numNodes G c.src)
    (hdst : ∀ t ∈ G.ntypes, ∃ c ∈ G.cetypes, c.dst = t) :
    ∃ out G2, layer.forward G feat = some (out, G2) ∧
      out.map Prod.fst = G.ntypes ∧
      ∀ p ∈ out, p.2.length = numNodes G p.1 ∧ ∀ row ∈ p.2, row.length = osz := by
  have hwh : ∀ c ∈ G.cetypes, (whFor layer.weight feat c).isSome := by
    intro c hc
    obtain ⟨L, hL, _, _⟩ := hw c hc
    obtain ⟨F, hF, _, _⟩ := hfeat c hc
    rw [whFor, hL, Option.some_bind', hF, Option.map_some']
    rfl
  obtain ⟨st1, hst1⟩ := writeWhs_isSome layer.weight feat G.cetypes G.store hwh
  have hscr : ∀ c ∈ G.cetypes,
      alookup (scratchKey c) st1 = whFor layer.weight feat c :=
    writeWhs_scratch layer.weight feat G.cetypes G.store st1 hst1
  have hres : ∀ e ∈ dedupAux [] (G.cetypes.map (fun c => c.rel)),
      (resolveRel G e).isSome := by
    intro e he
    obtain ⟨he1, _⟩ := (mem_dedupAux _ _ _).mp he
    obtain ⟨c, hc, rfl⟩ := List.mem_map.mp he1
    rw [resolveRel_of_filter_eq G c (hsing c hc)]
    rfl
  obtain ⟨cs, hcs⟩ := optMap_isSome (resolveRel G) _ hres
  have hcs_sub : ∀ c2 ∈ cs, c2 ∈ G.cetypes := by
    intro c2 hc2
    obtain ⟨e, _, hres2⟩ := optMap_mem (resolveRel G) _ cs hcs c2 hc2
    exact (resolveRel_eq_some G e c2 hres2).1
  have hmem_cs : ∀ c ∈ G.cetypes, c ∈ cs := by
    intro c hc
    have hname : c.rel ∈ dedupAux [] (G.cetypes.map (fun c2 => c2.rel)) :=
      (mem_dedupAux _ _ _).mpr ⟨List.mem_map.mpr ⟨c, hc, rfl⟩, by simp⟩
    obtain ⟨y, hy, hymem⟩ := optMap_mem_of_mem (resolveRel G) _ cs hcs c.rel hname
    rw [resolveRel_unique G c.rel y c hy hc rfl]
    exact hymem
  have hWhShape : ∀ c ∈ G.cetypes, ∃ M, alookup (scratchKey c) st1 = some M ∧
      M.length = numNodes G c.src ∧ matWidth M = osz ∧
      ∀ r ∈ M, r.length = osz := by
    intro c hc
    obtain ⟨M, hM⟩ := Option.isSome_iff_exists.mp (hwh c hc)
    obtain ⟨F, hF, hFlen, hFpos⟩ := hfeat c hc
    have hsh := whFor_shape layer.weight feat c M osz hM (hw c hc)
      ⟨F, hF, by rw [hFlen]; exact hFpos⟩
    refine ⟨M, by rw [hscr c hc, hM], ?_, hsh.2.1, hsh.2.2⟩
    rw [hsh.1, hF]
    exact hFlen
  have haggFor : ∀ c2 ∈ cs, ∃ A, aggFor G st1 c2 = some A ∧
      A.length = numNodes G c2.dst ∧ ∀ r ∈ A, r.length = osz := by
    intro c2 hc2
    have hc2g := hcs_sub c2 hc2
    obtain ⟨M, hM, hMlen, hMw, hMr⟩ := hWhShape c2 hc2g
    refine ⟨aggMean M (matWidth M) (edgesOf G c2) (numNodes G c2.dst), ?_, ?_, ?_⟩
    · rw [aggFor, hM, Option.map_some']
    · exact aggMean_length _ _ _ _
    · intro r hr
      rw [← hMw]
      exact aggMean_rows M (matWidth M) (edgesOf G c2) (numNodes G c2.dst)
        (numNodes G c2.src) hMlen (fun r2 hr2 => by rw [hMr r2 hr2, hMw])
        (hedges c2 hc2g) r hr
  obtain ⟨aggs, haggs⟩ := optMap_isSome
    (fun c => (aggFor G st1 c).map (fun A => (c.dst, A))) cs
    (fun c2 hc2 => by
      obtain ⟨A, hA, _, _⟩ := haggFor c2 hc2
      simp only [hA, Option.map_some']
      rfl)
  have hmua : multiUpdateAllSum G st1 (dedupAux [] (G.cetypes.map (fun c => c.rel))) =
      some (writeHAll aggs (dedupAux [] (cs.map (fun c => c.dst))) st1) := by
    rw [multiUpdateAllSum, hcs, Option.some_bind', haggs, Option.map_some']
  have hdmem : ∀ t ∈ G.ntypes,
      t ∈ dedupAux [] (cs.map (fun c => c.dst)) ∧ ∃ p ∈ aggs, p.1 = t := by
    intro t ht
    obtain ⟨c, hc, hct⟩ := hdst t ht
    subst hct
    have hccs := hmem_cs c hc
    constructor
    · exact (mem_dedupAux _ _ _).mpr ⟨List.mem_map.mpr ⟨c, hccs, rfl⟩, by simp⟩
    · obtain ⟨y, hy, hymem⟩ := optMap_mem_of_mem
        (fun c => (aggFor G st1 c).map (fun A => (c.dst, A))) cs aggs haggs c hccs
      obtain ⟨A, hA, _, _⟩ := haggFor c hccs
      rw [hA, Option.map_some'] at hy
      cases hy
      exact ⟨(c.dst, A), hymem, rfl⟩
  have haggsShape : ∀ (t : String), ∀ p ∈ aggs, p.1 = t →
      p.2.length = numNodes G t ∧ ∀ r ∈ p.2, r.length = osz := by
    intro t p hp hpt
    obtain ⟨c2, hc2, hf⟩ := optMap_mem
      (fun c => (aggFor G st1 c).map (fun A => (c.dst, A))) cs aggs haggs p hp
    obtain ⟨A, hA, hAlen, hAr⟩ := haggFor c2 hc2
    rw [hA, Option.map_some'] at hf
    cases hf
    subst hpt
    exact ⟨hAlen, hAr⟩
  have hout : ∀ t ∈ G.ntypes,
      (alookup (t, "h") (writeHAll aggs (dedupAux [] (cs.map (fun c => c.dst))) st1)).isSome := by
    intro t ht
    rw [writeHAll_find_h, if_pos (hdmem t ht).1]
    rfl
  obtain ⟨out, hout2⟩ := optMap_isSome
    (fun t => (alookup (t, "h")
      (writeHAll aggs (dedupAux [] (cs.map (fun c => c.dst))) st1)).map
      (fun M => (t, M))) G.ntypes
    (fun t ht => by
      obtain ⟨M, hM⟩ := Option.isSome_iff_exists.mp (hout t ht)
      simp only [hM, Option.map_some']
      rfl)
  refine ⟨out, { G with store := writeHAll aggs (dedupAux [] (cs.map (fun c => c.dst))) st1 }, ?_, ?_, ?_⟩
  · rw [HeteroRGCNLayer.forward, hst1, Option.some_bind', hmua,
      Option.some_bind', hout2, Option.map_some']
  · refine optMap_keys _ Prod.fst ?_ G.ntypes out hout2
    intro t y hy
    cases halk : alookup (t, "h")
        (writeHAll aggs (dedupAux [] (cs.map (fun c => c.dst))) st1) with
    | none => rw [halk, Option.map_none'] at hy; cases hy
    | some M => rw [halk, Option.map_some'] at hy; cases hy; rfl
  · intro p hp
    obtain ⟨t, ht, hf⟩ := optMap_mem _ G.ntypes out hout2 p hp
    cases halk : alookup (t, "h")
        (writeHAll aggs (dedupAux [] (cs.map (fun c => c.dst))) st1) with
    | none => rw [halk, Option.map_none'] at hf; cases hf
    | some Mp =>
      rw [halk, Option.map_some'] at hf
      cases hf
      rw [writeHAll_find_h, if_pos (hdmem t ht).1] at halk
      cases halk
      have hsh := sumAggs_shape t aggs (numNodes G t) osz (haggsShape t)
        (hdmem t ht).2
      exact ⟨hsh.1, hsh.2⟩

/-- C1 (amended): the final comprehension of `HeteroRGCNLayer.forward`
reads feature `h` for every node type of `G`, so the returned dictionary
has an entry for every node type — which coincides with the set of
destination types exactly when every node type is the destination of at
least one canonical edge type (otherwise the pass fails, see the
counterexample).  Under that assumption — with unambiguous relation names,
a weight of shape `(osz, isz)` with a bias of length `osz` for every
relation, input features covering every source type with one row of width
`isz` per node (the width consistency `nn.Linear` demands, at least one
node per source type), and edge endpoints in range — the pass succeeds and
every returned tensor has shape `(G.num_nodes(t), out_size)`. -/
theorem forward_output_types_amended (layer : HeteroRGCNLayer)
    (G : HeteroGraph) (feat : List (String × Mat)) (isz osz : Nat)
    (hsing : ∀ c ∈ G.cetypes, G.cetypes.filter (fun c2 => c2.rel == c.rel) = [c])
    (hw : ∀ c ∈ G.cetypes, ∃ L, alookup c.rel layer.weight = some L ∧
      L.W.length = osz ∧ L.b.length = osz ∧ ∀ row ∈ L.W, row.length = isz)
    (hfeat : ∀ c ∈ G.cetypes, ∃ F, alookup c.src feat = some F ∧
      F.length = numNodes G c.src ∧ 0 < numNodes G c.src ∧
      ∀ row ∈ F, row.length = isz)
    (hedges : ∀ c ∈ G.cetypes, ∀ e ∈ edgesOf G c, e.1 < numNodes G c.src)
    (hdst : ∀ t ∈ G.ntypes, ∃ c ∈ G.cetypes, c.dst = t) :
    ∃ out G2, layer.forward G feat = some (out, G2) ∧
      out.map Prod.fst = G.ntypes ∧
      (∀ p ∈ out, ∃ c ∈ G.cetypes, c.dst = p.1) ∧
      ∀ p ∈ out, p.2.length = numNodes G p.1 ∧ ∀ row ∈ p.2, row.length = osz := by
  obtain ⟨out, G2, h1, h2, h3⟩ :=
    layer_total_shape layer G feat osz hsing
      (fun c hc => (hw c hc).imp (fun L hL => ⟨hL.1, hL.2.1, hL.2.2.1⟩))
      (fun c hc => (hfeat c hc).imp (fun F hF => ⟨hF.1, hF.2.1, hF.2.2.1⟩))
      hedges hdst
  refine ⟨out, G2, h1, h2, ?_, h3⟩
  intro p hp
  apply hdst
  rw [← h2]
  exact List.mem_map.mpr ⟨p, hp, rfl⟩

/-- Witness for the amended C1, at the concrete scenario S2. -/
theorem forward_output_types_amended_witness :
    ∃ out G2, HeteroRGCNLayer.forward ⟨wS2⟩ GS2 featS2 = some (out, G2) ∧
      out.map Prod.fst = GS2.ntypes ∧
      (∀ p ∈ out, ∃ c ∈ GS2.cetypes, c.dst = p.1) ∧
      ∀ p ∈ out, p.2.length = numNodes GS2 p.1 ∧ ∀ row ∈ p.2, row.length = 1 :=
  forward_output_types_amended ⟨wS2⟩ GS2 featS2 1 1
    (by decide)
    (by
      intro c hc
      simp [GS2] at hc
      subst hc
      exact ⟨idLin1, rfl, rfl, rfl, by decide⟩)
    (by
      intro c hc
      simp [GS2] at hc
      subst hc
      exact ⟨[[1], [2], [3]], rfl, rfl, by decide, by decide⟩)
    (by decide)
    (by decide)

/-- Looking up a node type in the Leaky-ReLU-mapped dictionary gives the
Leaky-ReLU-mapped matrix. -/
theorem alookup_mapLeaky (t : String) :
    ∀ l : List (String × Mat), alookup t (mapLeaky l) =
      (alookup t l).map (fun M => M.map (fun row => row.map leakyRelu)) := by
  intro l
  induction l with
  | nil => rfl
  | cons p ps ih =>
    simp only [mapLeaky, List.map_cons]
    rw [alookup, alookup]
    by_cases hpt : p.1 = t
    · rw [if_pos hpt, if_pos hpt, Option.map_some']
    · rw [if_neg hpt, if_neg hpt]
      simp only [mapLeaky] at ih
      exact ih

/-- C8: `HeteroRGCN.forward` is layer 1 on the embeddings, an element-wise
map of `x ↦ if x < 0 then x/100 else x` (Leaky-ReLU with negative slope
0.01) over every tensor in the result, layer 2, and the lookup of the
designated output type `paper`; when it succeeds under the usual
well-formedness conditions, the returned tensor is the second layer's
output entry for `paper` of shape `(n_paper, out_size)`. -/
theorem hetero_rgcn_forward_contract :
    (∀ (model : HeteroRGCN) (G : HeteroGraph),
      model.forward G = (model.layer1.forward G model.embed).bind (fun p =>
        (model.layer2.forward p.2 (p.1.map (fun q => (q.1,
          q.2.map (fun row => row.map (fun x => if x < 0 then x / 100 else x)))))).bind
          (fun q => (alookup "paper" q.1).map (fun Mv => (Mv, q.2))))) ∧
    (∀ (model : HeteroRGCN) (G : HeteroGraph) (M : Mat) (G2 : HeteroGraph)
      (hsz osz : Nat),
      (∀ c ∈ G.cetypes, G.cetypes.filter (fun c2 => c2.rel == c.rel) = [c]) →
      (∀ c ∈ G.cetypes, c.src ∈ G.ntypes) →
      (∀ c ∈ G.cetypes, ∃ L, alookup c.rel model.layer1.weight = some L ∧
        L.W.length = hsz ∧ L.b.length = hsz) →
      (∀ c ∈ G.cetypes, ∃ L, alookup c.rel model.layer2.weight = some L ∧
        L.W.length = osz ∧ L.b.length = osz) →
      (∀ c ∈ G.cetypes, ∃ F, alookup c.src model.embed = some F ∧
        F.length = numNodes G c.src ∧ 0 < numNodes G c.src) →
      (∀ c ∈ G.cetypes, ∀ e ∈ edgesOf G c, e.1 < numNodes G c.src) →
      (∀ t ∈ G.ntypes, ∃ c ∈ G.cetypes, c.dst = t) →
      model.forward G = some (M, G2) →
      ∃ out1 G1 out2, model.layer1.forward G model.embed = some (out1, G1) ∧
        model.layer2.forward G1 (mapLeaky out1) = some (out2, G2) ∧
        alookup "paper" out2 = some M ∧
        M.length = numNodes G "paper" ∧ ∀ row ∈ M, row.length = osz) := by
  constructor
  · intro model G
    rfl
  · intro model G M G2 hsz osz hsing hsrc hw1 hw2 hfeat hedges hdst hfw
    rw [HeteroRGCN.forward] at hfw
    cases hfw1 : model.layer1.forward G model.embed with
    | none => rw [hfw1, Option.none_bind'] at hfw; cases hfw
    | some p =>
      rw [hfw1, Option.some_bind'] at hfw
      obtain ⟨h1, G1⟩ := p
      dsimp only at hfw
      obtain ⟨out1, G1b, hfw1b, hkeys1, hsh1⟩ :=
        layer_total_shape model.layer1 G model.embed hsz hsing hw1 hfeat
          hedges hdst
      rw [hfw1, Option.some.injEq, Prod.mk.injEq] at hfw1b
      obtain ⟨he1, he2⟩ := hfw1b
      subst he1
      subst he2
      obtain ⟨st1, st2, _, _, _, hG1⟩ :=
        forward_eq_some model.layer1 G model.embed h1 G1 hfw1
      subst hG1
      have hfeat2 : ∀ c ∈ G.cetypes, ∃ F, alookup c.src (mapLeaky h1) = some F ∧
          F.length = numNodes G c.src ∧ 0 < numNodes G c.src := by
        intro c hc
        have hsrcmem : c.src ∈ h1.map Prod.fst := by
          rw [hkeys1]
          exact hsrc c hc
        obtain ⟨F1, hF1⟩ := Option.isSome_iff_exists.mp
          (alookup_isSome_of_mem_keys _ h1 hsrcmem)
        have hsh := hsh1 (c.src, F1) (alookup_mem _ h1 F1 hF1)
        obtain ⟨_, _, _, hpos⟩ := hfeat c hc
        refine ⟨F1.map (fun row => row.map leakyRelu), ?_, ?_, hpos⟩
        · rw [alookup_mapLeaky, hF1, Option.map_some']
        · rw [List.length_map]
          exact hsh.1
      cases hfw2 : model.layer2.forward { G with store := st2 } (mapLeaky h1) with
      | none => rw [hfw2, Option.none_bind'] at hfw; cases hfw
      | some q =>
        rw [hfw2, Option.some_bind'] at hfw
        obtain ⟨h2, G2b⟩ := q
        dsimp only at hfw
        cases halk : alookup "paper" h2 with
        | none => rw [halk, Option.map_none'] at hfw; cases hfw
        | some Mp =>
          rw [halk, Option.map_some', Option.some.injEq, Prod.mk.injEq] at hfw
          obtain ⟨hMp, hG2b⟩ := hfw
          subst hMp
          subst hG2b
          obtain ⟨out2, G2c, hfw2b, hkeys2, hsh2⟩ :=
            layer_total_shape model.layer2 { G with store := st2 }
              (mapLeaky h1) osz hsing hw2 hfeat2 hedges hdst
          rw [hfw2, Option.some.injEq, Prod.mk.injEq] at hfw2b
          obtain ⟨ho2, _⟩ := hfw2b
          subst ho2
          have hsh := hsh2 ("paper", Mp) (alookup_mem _ h2 Mp halk)
          refine ⟨h1, { G with store := st2 }, h2, rfl, ?_, ?_, hsh.1, hsh.2⟩
          · first | rfl | exact hfw2
          · first | rfl | exact halk

/-- Witness for C8, at the concrete two-layer model on scenario S2. -/
theorem hetero_rgcn_forward_contract_witness :
    (modelS2.forward GS2 = (modelS2.layer1.forward GS2 modelS2.embed).bind
      (fun p => (modelS2.layer2.forward p.2 (p.1.map (fun q => (q.1,
        q.2.map (fun row => row.map (fun x => if x < 0 then x / 100 else x)))))).bind
        (fun q => (alookup "paper" q.1).map (fun Mv => (Mv, q.2))))) ∧
    (∃ out1 G1 out2,
      modelS2.layer1.forward GS2 modelS2.embed = some (out1, G1) ∧
      modelS2.layer2.forward G1 (mapLeaky out1) = some (out2, GS2final) ∧
      alookup "paper" out2 = some [[0], [0], [0]] ∧
      ([[0], [0], [0]] : Mat).length = numNodes GS2 "paper" ∧
      ∀ row ∈ ([[0], [0], [0]] : Mat), row.length = 1) := by
  refine ⟨hetero_rgcn_forward_contract.1 modelS2 GS2, ?_⟩
  refine hetero_rgcn_forward_contract.2 modelS2 GS2 [[0], [0], [0]] GS2final 1 1
    (by decide) (by decide)
    (by
      intro c hc
      simp [GS2] at hc
      subst hc
      exact ⟨idLin1, rfl, rfl, rfl⟩)
    (by
      intro c hc
      simp [GS2] at hc
      subst hc
      exact ⟨idLin1, rfl, rfl, rfl⟩)
    (by
      intro c hc
      simp [GS2] at hc
      subst hc
      exact ⟨[[1], [2], [3]], rfl, rfl, by decide⟩)
    (by decide) (by decide)
    (by
      simp [HeteroRGCN.forward, HeteroRGCNLayer.forward, mapLeaky, leakyRelu,
        writeWhs, whFor, alookup, wS2, GS2, featS2, modelS2, idLin1, linMap,
        linApply, dot, multiUpdateAllSum, optMap, resolveRel, aggFor, aggMean,
        sumAggs, writeHAll, dedupAux, scratchKey, edgesOf, numNodes, getRow,
        matWidth, Store.insert, vecScale, vecAdd, vecZero, matAdd,
        List.range_succ, List.range_zero, GS2final, stS2final])
